import Mathlib

/-
  Verification of `array.h` (maluoi/header-libs): a POD dynamic array
  (`array_t<T>`) and a strided view (`array_view_t<T>`).

  Shallow embedding conventions:
  * `size_t` quantities (count, capacity, indices) are `Nat`.  The only
    place where `size_t` wrap-around is reachable in practice is
    `count - 1` on an empty array (`pop`, `last`); there we model the
    64-bit wrap explicitly with `pred64`.
  * A buffer of `capacity` elements is a `List (Option α)` of length
    `capacity`; `none` is an uninitialized cell.
  * The allocator (`ARRAY_MALLOC`, by default glibc `malloc`) is modelled
    by `Heap`: `nextId` is the next fresh non-null pointer value and
    `zeroNull` says whether a zero-byte request returns a null pointer
    (ISO C allows either; glibc returns a fresh non-null pointer).
    `sizeof(T) * n = 0` iff `n = 0` since `sizeof(T) >= 1`, so `hmalloc`
    takes the element count as its size argument.
  * Operations that can hit `ARRAY_ASSERT` (debug `assert`) or touch
    memory outside the valid region return a `CRes`: `.ok` for a defined
    result, `.assertFailed` when the assertion fires, `.ub` for an
    unchecked out-of-bounds or uninitialized access.
-/

/-- Result of a C++ operation: normal result, a failed `ARRAY_ASSERT`,
or undefined behavior (unchecked bad access). -/
inductive CRes (α : Type) where
  | ok (v : α)
  | assertFailed
  | ub
deriving DecidableEq, Repr

/-- Allocator state: `zeroNull` fixes the behavior of `malloc(0)`
(null, or a fresh non-null pointer as in glibc); `nextId` is the next
pointer value handed out. -/
structure Heap where
  zeroNull : Bool
  nextId : Nat
deriving DecidableEq, Repr

/-- `ARRAY_MALLOC(sizeof(T) * n)`: returns the pointer and the new
allocator state.  A zero-byte request returns null iff `zeroNull`. -/
def hmalloc (h : Heap) (n : Nat) : Nat × Heap :=
  if n = 0 ∧ h.zeroNull = true then (0, h)
  else (h.nextId, ⟨h.zeroNull, h.nextId + 1⟩)

/-- `2^64`, the number of `size_t` values. -/
def SZ64 : Nat := 2 ^ 64

/-- `n - 1` in `size_t` arithmetic (wraps to `2^64 - 1` at `n = 0`). -/
def pred64 (n : Nat) : Nat := (n + (SZ64 - 1)) % SZ64

/-- Read the memory cell at index `k` of a buffer; out-of-allocation
reads give `none`, like an uninitialized cell (both are undefined
behavior when the surrounding operation interprets them as a `T`). -/
def rd {α : Type} (l : List (Option α)) (k : Nat) : Option α := l.getD k none

/-- `struct array_t<T> { void *data; size_t count; size_t capacity; }`.
`dataPtr` is the pointer value (0 = null), `buf` the pointed-to buffer. -/
structure array_t (α : Type) where
  dataPtr : Nat
  buf : List (Option α)
  count : Nat
  capacity : Nat
deriving DecidableEq, Repr

/-- The zero-initialized array `array_t<T> a = {}`. -/
def array_t.empty {α : Type} : array_t α := ⟨0, [], 0, 0⟩

/-- `array_t<T>::resize(size_t to_capacity)`: truncate `count`, allocate
a new buffer, `memcpy` the first `count` elements, free the old buffer,
set `capacity`. -/
def array_t.resize {α : Type} (a : array_t α) (h : Heap) (to_capacity : Nat) :
    array_t α × Heap :=
  let cnt := if a.count > to_capacity then to_capacity else a.count
  let m := hmalloc h to_capacity
  ({ dataPtr := m.1,
     buf := a.buf.take cnt ++ List.replicate (to_capacity - cnt) none,
     count := cnt,
     capacity := to_capacity }, m.2)

/-- `array_t<T>::free()`: `ARRAY_FREE(data); *this = {};`. -/
def array_t.free {α : Type} (_ : array_t α) : array_t α := array_t.empty

/-- `array_t<T>::copy()`: new buffer of the same `capacity`, `memcpy` of
the first `count` elements. -/
def array_t.copy {α : Type} (a : array_t α) (h : Heap) : array_t α × Heap :=
  let m := hmalloc h a.capacity
  ({ dataPtr := m.1,
     buf := a.buf.take a.count ++ List.replicate (a.capacity - a.count) none,
     count := a.count,
     capacity := a.capacity }, m.2)

/-- `array_t<T>::add(item)`: grow via `resize(capacity*2 < 4 ? 4 :
capacity*2)` when `count+1 >= capacity`, then write at index `count`,
increment `count`, return the old `count`. -/
def array_t.add {α : Type} (a : array_t α) (h : Heap) (x : α) :
    array_t α × Heap × Nat :=
  let p := if a.count + 1 ≥ a.capacity then
      a.resize h (if a.capacity * 2 < 4 then 4 else a.capacity * 2)
    else (a, h)
  ({ p.1 with buf := p.1.buf.set p.1.count (some x), count := p.1.count + 1 },
   p.2, p.1.count)

/-- `array_t<T>::clear()`: `count = 0`. -/
def array_t.clear {α : Type} (a : array_t α) : array_t α := { a with count := 0 }

/-- `array_t<T>::get(id)`: unchecked `((T*)data)[id]`. -/
def array_t.get {α : Type} (a : array_t α) (id : Nat) : CRes α :=
  match rd a.buf id with
  | some v => .ok v
  | none => .ub

/-- `array_t<T>::operator[](id)`: same body as `get`. -/
def array_t.opIndex {α : Type} (a : array_t α) (id : Nat) : CRes α :=
  match rd a.buf id with
  | some v => .ok v
  | none => .ub

/-- `array_t<T>::set(id, val)`: unchecked `((T*)data)[id] = val`
(undefined behavior outside the allocation). -/
def array_t.set {α : Type} (a : array_t α) (id : Nat) (v : α) :
    CRes (array_t α) :=
  if id < a.buf.length then .ok { a with buf := a.buf.set id (some v) }
  else .ub

/-- `array_t<T>::last()`: unchecked `((T*)data)[count - 1]` (with
`size_t` wrap-around at `count = 0`). -/
def array_t.last {α : Type} (a : array_t α) : CRes α :=
  match rd a.buf (pred64 a.count) with
  | some v => .ok v
  | none => .ub

/-- The buffer after `memmove` in `array_t<T>::remove(at)`: elements
`[at+1, count)` shift down one slot; the cell at `count-1` keeps its
stale value. -/
def removeShift {α : Type} (l : List (Option α)) (i cnt : Nat) :
    List (Option α) :=
  l.take i ++ (l.drop (i + 1)).take (cnt - (i + 1)) ++ l.drop (cnt - 1)

/-- `array_t<T>::remove(at)`: `ARRAY_ASSERT(at < count)`, shift down,
decrement `count`. -/
def array_t.remove {α : Type} (a : array_t α) (i : Nat) : CRes (array_t α) :=
  if i < a.count then
    .ok { a with buf := removeShift a.buf i a.count, count := a.count - 1 }
  else .assertFailed

/-- `array_t<T>::pop()`: `remove(count - 1)` with `size_t` wrap-around
at `count = 0`. -/
def array_t.pop {α : Type} (a : array_t α) : CRes (array_t α) :=
  a.remove (pred64 a.count)

/-- The buffer after `memmove` + `memcpy` in `array_t<T>::insert`:
elements `[at, count)` shift up one slot and `item` lands at `at`. -/
def insertShift {α : Type} (l : List (Option α)) (i cnt : Nat) (x : α) :
    List (Option α) :=
  l.take i ++ [some x] ++ ((l.drop i).take (cnt - i) ++ l.drop (cnt + 1))

/-- `array_t<T>::insert(at, item)`: `ARRAY_ASSERT(at <= count)`, grow
via `resize(capacity < 1 ? 1 : capacity*2)` when `count+1 > capacity`,
shift up, write `item`, increment `count`. -/
def array_t.insert {α : Type} (a : array_t α) (h : Heap) (i : Nat) (x : α) :
    CRes (array_t α × Heap) :=
  if i ≤ a.count then
    let p := if a.count + 1 > a.capacity then
        a.resize h (if a.capacity < 1 then 1 else a.capacity * 2)
      else (a, h)
    .ok ({ p.1 with buf := insertShift p.1.buf i p.1.count x,
                    count := p.1.count + 1 }, p.2)
  else .assertFailed

/-- One iteration of the `reverse()` loop: swap cells `i` and
`count - i - 1`. -/
def swapStep {α : Type} (l : List (Option α)) (cnt i : Nat) :
    List (Option α) :=
  (l.set i (rd l (cnt - 1 - i))).set (cnt - 1 - i) (rd l i)

/-- The `reverse()` loop, with `fuel` iterations left, current index `i`. -/
def revAux {α : Type} (l : List (Option α)) (cnt i fuel : Nat) :
    List (Option α) :=
  match fuel with
  | 0 => l
  | fuel' + 1 => revAux (swapStep l cnt i) cnt (i + 1) fuel'

/-- `array_t<T>::reverse()`: `count/2` swaps from both ends inward. -/
def array_t.reverse {α : Type} (a : array_t α) : array_t α :=
  { a with buf := revAux a.buf a.count 0 (a.count / 2) }

/-- `array_t<T>::each(e)`: apply `e` to every element in index order
(the callback mutates the element in place). -/
def array_t.each {α : Type} (a : array_t α) (e : α → α) : array_t α :=
  { a with buf := (a.buf.take a.count).map (Option.map e) ++ a.buf.drop a.count }

/-- A sequence of consecutive `add` calls, threading the allocator. -/
def addAll {α : Type} (a : array_t α) (h : Heap) (items : List α) :
    array_t α × Heap :=
  items.foldl (fun p x => let r := p.1.add p.2 x; (r.1, r.2.1)) (a, h)

/-- The spec invariant for C3: `data` is null exactly when
`capacity == 0`. -/
def nullIff {α : Type} (a : array_t α) : Prop := a.dataPtr = 0 ↔ a.capacity = 0

instance {α : Type} (a : array_t α) : Decidable (nullIff a) := by
  unfold nullIff
  infer_instance

/-- Frame predicate for C10: if the operation returned normally, the
data pointer and the capacity are unchanged. -/
def framePres {α : Type} (a : array_t α) : CRes (array_t α) → Prop
  | .ok a' => a'.dataPtr = a.dataPtr ∧ a'.capacity = a.capacity
  | .assertFailed => True
  | .ub => True

/-- Frame predicate for C10 on `insert` (which also threads the
allocator): a normal return leaves the data pointer, the capacity and
the allocator state unchanged. -/
def framePresH {α : Type} (a : array_t α) (h : Heap) :
    CRes (array_t α × Heap) → Prop
  | .ok p => p.1.dataPtr = a.dataPtr ∧ p.1.capacity = a.capacity ∧ p.2 = h
  | .assertFailed => True
  | .ub => True

/-
  The strided view `array_view_t<T>`.

  The view code in the source header is ill-formed C++ and cannot be
  instantiated (see the C4/C8 theorems below): `array_view_create`
  initializes the `size_t offset` field directly from a pointer-to-member
  `T D::*`, form (b) deduces `T` both from `array_t<T>` and from the
  member pointer's field type, and `get`/`last`/`each` cast a pointer
  rvalue to `T&`.  The definitions below are therefore modelled from the
  spec's words (construction stores `(data, count, stride = sizeof(D),
  offset = offsetof(D, field))`; access reinterprets the `T` located at
  byte address `data + index*stride + offset`), which also matches the
  header's own usage example and its `set` method.
-/

/-- `struct array_view_t<T>`: base pointer, element count, byte stride,
byte offset. -/
structure array_view_t (T : Type) where
  data : Nat
  count : Nat
  stride : Nat
  offset : Nat
deriving DecidableEq, Repr

/-- Modelled from the spec: the pointer-to-member field descriptor
`T D::*`, replaced (as spec section 9 prescribes) by the record size
`sizeof(D)` and the byte offset of the `T`-typed field within `D`. -/
structure FieldDesc where
  recordSize : Nat
  fieldOffset : Nat
deriving DecidableEq, Repr

/-- Foreign memory as seen through a view of `T` values: the `T` object
living at a given byte address, if that address holds a valid `T`. -/
def ViewMem (T : Type) : Type := Nat → Option T

/-- Modelled from the spec: `array_view_create(const D *data, size_t
count, T D::*offset)` — form (a), from a raw pointer, a count and a
field descriptor. -/
def array_view_create {T : Type} (data : Nat) (count : Nat)
    (fd : FieldDesc) : array_view_t T :=
  ⟨data, count, fd.recordSize, fd.fieldOffset⟩

/-- Modelled from the spec: `array_view_create(const array_t<D> &src,
T D::*offset)` — form (b), from a growable array of `D` records and a
field descriptor (the source's `const array_t<T>&` signature cannot
deduce; the header's own example call requires `array_t<D>`). -/
def array_view_create_of_array {D T : Type} (src : array_t D)
    (fd : FieldDesc) : array_view_t T :=
  ⟨src.dataPtr, src.count, fd.recordSize, fd.fieldOffset⟩

/-- Modelled from the spec: `array_view_t<T>::get(id)` — read the `T`
at byte address `data + id*stride + offset` (the source's
`(T&)((uint8_t*)data + id*stride + offset)` casts the pointer rvalue
itself and does not compile; `set` at the same line dereferences). -/
def array_view_t.get {T : Type} (v : array_view_t T) (mem : ViewMem T)
    (id : Nat) : CRes T :=
  match mem (v.data + id * v.stride + v.offset) with
  | some x => .ok x
  | none => .ub

/-- Modelled from the spec: `array_view_t<T>::copy_deinterlace()` —
allocate a tightly packed buffer of `count` `T` values and copy `get(i)`
into slot `i`.  It only reads through `mem`, so the source memory is
unchanged. -/
def array_view_t.copy_deinterlace {T : Type} (v : array_view_t T)
    (mem : ViewMem T) : List (Option T) :=
  (List.range v.count).map (fun i => mem (v.data + i * v.stride + v.offset))

/-
  Lemma kit for the cell reader `rd`.
-/

theorem rd_nil {α : Type} (k : Nat) : rd ([] : List (Option α)) k = none := rfl

theorem rd_cons_zero {α : Type} (c : Option α) (l : List (Option α)) :
    rd (c :: l) 0 = c := rfl

theorem rd_cons_succ {α : Type} (c : Option α) (l : List (Option α)) (k : Nat) :
    rd (c :: l) (k + 1) = rd l k := rfl

theorem rd_eq_none_of_le {α : Type} (l : List (Option α)) (k : Nat)
    (h : l.length ≤ k) : rd l k = none := by
  induction l generalizing k with
  | nil => rfl
  | cons c t ih =>
    cases k with
    | zero => simp at h
    | succ k' => exact (rd_cons_succ c t k').trans (ih k' (by simpa using h))

theorem rd_append {α : Type} (l₁ l₂ : List (Option α)) (k : Nat) :
    rd (l₁ ++ l₂) k = if k < l₁.length then rd l₁ k else rd l₂ (k - l₁.length) := by
  induction l₁ generalizing k with
  | nil => simp [rd_nil]
  | cons c t ih =>
    cases k with
    | zero => simp [rd_cons_zero]
    | succ k' =>
      simp only [List.cons_append, rd_cons_succ, ih, List.length_cons,
        Nat.add_lt_add_iff_right, Nat.succ_sub_succ]

theorem rd_take {α : Type} (l : List (Option α)) (n k : Nat) :
    rd (l.take n) k = if k < n then rd l k else none := by
  induction l generalizing n k with
  | nil => simp [rd_nil]
  | cons c t ih =>
    cases n with
    | zero => simp [rd_nil]
    | succ n' =>
      cases k with
      | zero => simp [rd_cons_zero]
      | succ k' => simpa [rd_cons_succ] using ih n' k'

theorem rd_drop {α : Type} (l : List (Option α)) (n k : Nat) :
    rd (l.drop n) k = rd l (n + k) := by
  induction l generalizing n with
  | nil => simp [rd_nil]
  | cons c t ih =>
    cases n with
    | zero => simp
    | succ n' =>
      simpa [rd_cons_succ, Nat.succ_add] using ih n'

theorem rd_set {α : Type} (l : List (Option α)) (i k : Nat) (v : Option α) :
    rd (l.set i v) k = if i = k ∧ i < l.length then v else rd l k := by
  induction l generalizing i k with
  | nil => simp [rd_nil]
  | cons c t ih =>
    cases i with
    | zero =>
      cases k with
      | zero => simp [rd_cons_zero]
      | succ k' => simp [rd_cons_succ]
    | succ i' =>
      cases k with
      | zero => simp [rd_cons_zero]
      | succ k' => simpa [rd_cons_succ] using ih i' k'

theorem rd_replicate {α : Type} (n k : Nat) (c : Option α) :
    rd (List.replicate n c) k = if k < n then c else none := by
  induction n generalizing k with
  | zero => simp [rd_nil]
  | succ n' ih =>
    cases k with
    | zero => simp [List.replicate_succ, rd_cons_zero]
    | succ k' => simpa [List.replicate_succ, rd_cons_succ] using ih k'

theorem rd_map_some {α : Type} (l : List α) (k : Nat) :
    rd (l.map some) k = l[k]? := by
  induction l generalizing k with
  | nil => simp [rd_nil]
  | cons c t ih =>
    cases k with
    | zero => simp [rd_cons_zero]
    | succ k' => simpa [rd_cons_succ] using ih k'

theorem rd_ext {α : Type} (l₁ l₂ : List (Option α))
    (hlen : l₁.length = l₂.length) (h : ∀ k, rd l₁ k = rd l₂ k) : l₁ = l₂ := by
  induction l₁ generalizing l₂ with
  | nil => cases l₂ with
    | nil => rfl
    | cons c t => simp at hlen
  | cons c t ih =>
    cases l₂ with
    | nil => simp at hlen
    | cons c' t' =>
      have h0 := h 0
      simp only [rd_cons_zero] at h0
      have ht : t = t' := ih t' (by simpa using hlen) (fun k => h (k + 1))
      rw [h0, ht]

theorem rd_singleton {α : Type} (c : Option α) (k : Nat) :
    rd [c] k = if k = 0 then c else none := by
  cases k with
  | zero => rfl
  | succ k' => simp [rd_cons_succ, rd_nil]

/-
  Characterization of the `memmove` shifts of `remove` and `insert`.
-/

theorem removeShift_length {α : Type} (l : List (Option α)) (i cnt : Nat)
    (hi : i < cnt) (hc : cnt ≤ l.length) :
    (removeShift l i cnt).length = l.length := by
  simp [removeShift]
  omega

theorem rd_removeShift {α : Type} (l : List (Option α)) (i cnt k : Nat)
    (hi : i < cnt) (hc : cnt ≤ l.length) :
    rd (removeShift l i cnt) k =
      if i ≤ k ∧ k < cnt - 1 then rd l (k + 1) else rd l k := by
  simp only [removeShift, List.append_assoc, rd_append, rd_take, rd_drop,
    List.length_take, List.length_drop]
  split_ifs <;> first | rfl | (exfalso; omega) | (congr 1; omega)

theorem insertShift_length {α : Type} (l : List (Option α)) (i cnt : Nat)
    (x : α) (hi : i ≤ cnt) (hc : cnt < l.length) :
    (insertShift l i cnt x).length = l.length := by
  simp [insertShift]
  omega

theorem rd_insertShift {α : Type} (l : List (Option α)) (i cnt k : Nat)
    (x : α) (hi : i ≤ cnt) (hc : cnt < l.length) :
    rd (insertShift l i cnt x) k =
      if k < i then rd l k
      else if k = i then some x
      else if k ≤ cnt then rd l (k - 1)
      else rd l k := by
  simp only [insertShift, List.append_assoc, rd_append, rd_take, rd_drop,
    rd_singleton, List.length_take, List.length_drop, List.length_cons,
    List.length_nil]
  split_ifs <;> first | rfl | (exfalso; omega) | (congr 1; omega)

/-
  Characterization of the `reverse()` swap loop.
-/

theorem swapStep_length {α : Type} (l : List (Option α)) (cnt i : Nat) :
    (swapStep l cnt i).length = l.length := by
  simp [swapStep]

theorem revAux_length {α : Type} (fuel : Nat) :
    ∀ (l : List (Option α)) (cnt i : Nat),
      (revAux l cnt i fuel).length = l.length := by
  induction fuel with
  | zero => intro l cnt i; rfl
  | succ fuel' ih =>
    intro l cnt i
    simp only [revAux, ih, swapStep_length]

theorem rd_swapStep {α : Type} (l : List (Option α)) (cnt i k : Nat)
    (hi : i < cnt - 1 - i) (hc : cnt ≤ l.length) :
    rd (swapStep l cnt i) k =
      if k = i then rd l (cnt - 1 - i)
      else if k = cnt - 1 - i then rd l i
      else rd l k := by
  simp only [swapStep, rd_set, List.length_set]
  split_ifs <;> first | rfl | (exfalso; omega)

theorem rd_revAux {α : Type} (fuel : Nat) :
    ∀ (l : List (Option α)) (cnt i : Nat), cnt ≤ l.length →
      i + fuel = cnt / 2 →
      ∀ k, rd (revAux l cnt i fuel) k =
        if i ≤ k ∧ k < cnt - i then rd l (cnt - 1 - k) else rd l k := by
  induction fuel with
  | zero =>
    intro l cnt i _ hhalf k
    simp only [revAux]
    split_ifs with h
    · have : cnt - 1 - k = k := by omega
      rw [this]
    · rfl
  | succ fuel' ih =>
    intro l cnt i hc hhalf k
    have hlt : i < cnt / 2 := by omega
    have hmid : i < cnt - 1 - i := by omega
    have hrec := ih (swapStep l cnt i) cnt (i + 1)
      (by rw [swapStep_length]; exact hc) (by omega) k
    simp only [revAux, hrec, rd_swapStep l cnt i _ hmid hc]
    split_ifs <;> first | rfl | (exfalso; omega) | (congr 1; omega)

/-
  Behavior of `resize` and `add` on well-formed states.
-/

theorem resize_spec {α : Type} (a : array_t α) (h : Heap) (m : Nat)
    (hlen : a.buf.length = a.capacity) (hle : a.count ≤ a.capacity) :
    (a.resize h m).1.capacity = m ∧
    (a.resize h m).1.buf.length = m ∧
    (a.resize h m).1.count = min a.count m ∧
    (a.resize h m).2 = (hmalloc h m).2 ∧
    (a.resize h m).1.dataPtr = (hmalloc h m).1 ∧
    ∀ j, j < min a.count m → rd (a.resize h m).1.buf j = rd a.buf j := by
  have hcnt : (if a.count > m then m else a.count) = min a.count m := by
    split <;> omega
  refine ⟨rfl, ?_, hcnt, rfl, rfl, ?_⟩
  · simp only [array_t.resize, List.length_append, List.length_take,
      List.length_replicate, hcnt]
    omega
  · intro j hj
    simp only [array_t.resize, rd_append, rd_take, List.length_take, hcnt]
    split_ifs <;> first | rfl | (exfalso; omega)

theorem add_spec {α : Type} (a : array_t α) (h : Heap) (x : α)
    (hlen : a.buf.length = a.capacity) (hle : a.count ≤ a.capacity) :
    (a.add h x).1.buf.length = (a.add h x).1.capacity ∧
    (a.add h x).1.count = a.count + 1 ∧
    (a.add h x).1.count ≤ (a.add h x).1.capacity ∧
    (a.add h x).2.2 = a.count ∧
    rd (a.add h x).1.buf a.count = some x ∧
    ∀ j, j < a.count → rd (a.add h x).1.buf j = rd a.buf j := by
  by_cases hg : a.count + 1 ≥ a.capacity
  · -- growth path: resize to `capacity*2 < 4 ? 4 : capacity*2`
    set m := if a.capacity * 2 < 4 then 4 else a.capacity * 2 with hm
    have hcm : a.count < m := by
      rw [hm]; split <;> omega
    obtain ⟨h1, h2, h3, _, _, h6⟩ := resize_spec a h m hlen hle
    have hmin : min a.count m = a.count := by omega
    rw [hmin] at h3 h6
    have hstep : a.add h x =
        ({ (a.resize h m).1 with
             buf := (a.resize h m).1.buf.set (a.resize h m).1.count (some x),
             count := (a.resize h m).1.count + 1 },
         (a.resize h m).2, (a.resize h m).1.count) := by
      simp only [array_t.add, if_pos hg, hm]
    rw [hstep]
    refine ⟨?_, ?_, ?_, ?_, ?_, ?_⟩
    · show ((a.resize h m).1.buf.set (a.resize h m).1.count (some x)).length =
        (a.resize h m).1.capacity
      rw [List.length_set, h2, h1]
    · show (a.resize h m).1.count + 1 = a.count + 1
      rw [h3]
    · show (a.resize h m).1.count + 1 ≤ (a.resize h m).1.capacity
      rw [h3, h1]; omega
    · show (a.resize h m).1.count = a.count
      exact h3
    · show rd ((a.resize h m).1.buf.set (a.resize h m).1.count (some x))
        a.count = some x
      rw [rd_set, h3, h2]
      split_ifs <;> first | rfl | (exfalso; omega)
    · intro j hj
      show rd ((a.resize h m).1.buf.set (a.resize h m).1.count (some x)) j =
        rd a.buf j
      rw [rd_set, h3, h2]
      split_ifs with hc
      · exfalso; omega
      · exact h6 j hj
  · -- no growth: write in place
    have hlt : a.count + 1 < a.capacity := by omega
    have hstep : a.add h x =
        ({ a with buf := a.buf.set a.count (some x), count := a.count + 1 },
         h, a.count) := by
      simp only [array_t.add, if_neg hg]
    rw [hstep]
    refine ⟨?_, rfl, ?_, rfl, ?_, ?_⟩
    · show (a.buf.set a.count (some x)).length = a.capacity
      rw [List.length_set]; exact hlen
    · show a.count + 1 ≤ a.capacity
      omega
    · show rd (a.buf.set a.count (some x)) a.count = some x
      rw [rd_set]
      split_ifs <;> first | rfl | (exfalso; omega)
    · intro j hj
      show rd (a.buf.set a.count (some x)) j = rd a.buf j
      rw [rd_set]
      split_ifs <;> first | rfl | (exfalso; omega)

theorem addAll_spec {α : Type} (items : List α) :
    ∀ (a : array_t α) (h : Heap) (l : List α),
      a.buf.length = a.capacity → a.count = l.length →
      a.count ≤ a.capacity →
      (∀ j, j < a.count → rd a.buf j = rd (l.map some) j) →
      (addAll a h items).1.buf.length = (addAll a h items).1.capacity ∧
      (addAll a h items).1.count = (l ++ items).length ∧
      (addAll a h items).1.count ≤ (addAll a h items).1.capacity ∧
      ∀ j, j < (addAll a h items).1.count →
        rd (addAll a h items).1.buf j = rd ((l ++ items).map some) j := by
  induction items with
  | nil =>
    intro a h l hlen hcnt hle hrd
    simp only [addAll, List.foldl_nil, List.append_nil]
    exact ⟨hlen, hcnt, hle, hrd⟩
  | cons x items' ih =>
    intro a h l hlen hcnt hle hrd
    obtain ⟨a1, a2, a3, _, a5, a6⟩ := add_spec a h x hlen hle
    have hstep : addAll a h (x :: items') =
        addAll (a.add h x).1 (a.add h x).2.1 items' := by
      simp only [addAll, List.foldl_cons]
    rw [hstep, show l ++ x :: items' = (l ++ [x]) ++ items' by simp]
    refine ih (a.add h x).1 (a.add h x).2.1 (l ++ [x]) a1 ?_ a3 ?_
    · rw [a2, hcnt]; simp
    · intro j hj
      rw [a2] at hj
      rcases Nat.lt_or_ge j a.count with hj' | hj'
      · rw [a6 j hj', hrd j hj', List.map_append, rd_append]
        simp only [List.length_map]
        rw [if_pos (by omega)]
      · have hje : j = a.count := by omega
        rw [hje, a5, List.map_append, rd_append]
        simp only [List.length_map]
        rw [if_neg (by omega), hcnt]
        simp [rd_singleton]

/-
  Claim theorems.
-/

/-- Claim C5: starting from the empty array, for every sequence of values
appended by consecutive `add` calls, `count` equals the number of values
afterwards, and `get i` returns the `i`-th appended value for every
`i < n` — insertion order is preserved, including across growth
reallocations. -/
theorem claim_C5_add_insertion_order {α : Type} (items : List α) (h : Heap) :
    (addAll (array_t.empty : array_t α) h items).1.count = items.length ∧
    ∀ j (v : α), items[j]? = some v →
      (addAll (array_t.empty : array_t α) h items).1.get j = CRes.ok v := by
  obtain ⟨-, h2, -, h4⟩ := addAll_spec items array_t.empty h []
    rfl rfl (Nat.le_refl 0) (fun j hj => absurd hj (Nat.not_lt_zero j))
  simp only [List.nil_append] at h2 h4
  refine ⟨h2, ?_⟩
  intro j v hv
  have hjlen : j < items.length := by
    by_contra hc
    have hnone : items[j]? = none := by
      rw [← rd_map_some]
      exact rd_eq_none_of_le _ _ (by simp; omega)
    rw [hnone] at hv
    exact Option.noConfusion hv
  have hr := h4 j (by rw [h2]; exact hjlen)
  rw [array_t.get, hr, rd_map_some, hv]

/-- Witness for C5 at a concrete input: three adds starting from the
empty array give `count = 3` and `get 1` returns the second value. -/
theorem claim_C5_add_insertion_order_witness :
    (addAll (array_t.empty : array_t Nat) ⟨true, 1⟩ [10, 20, 30]).1.count = 3 ∧
    (addAll (array_t.empty : array_t Nat) ⟨true, 1⟩ [10, 20, 30]).1.get 1 =
      CRes.ok 20 :=
  ⟨(claim_C5_add_insertion_order [10, 20, 30] ⟨true, 1⟩).1,
   (claim_C5_add_insertion_order [10, 20, 30] ⟨true, 1⟩).2 1 20 rfl⟩

/-- Claim C7: for every well-formed array, `resize k` with `k < count`
sets `count` to `k` and preserves the first `k` elements; `resize k`
with `k >= count` preserves all `count` elements and leaves `count`
unmodified; in both cases the resulting capacity is `k`. -/
theorem claim_C7_resize {α : Type} (a : array_t α) (h : Heap) (k : Nat)
    (hlen : a.buf.length = a.capacity) (hle : a.count ≤ a.capacity) :
    (a.resize h k).1.capacity = k ∧
    (k < a.count → (a.resize h k).1.count = k ∧
      ∀ j, j < k → (a.resize h k).1.get j = a.get j) ∧
    (a.count ≤ k → (a.resize h k).1.count = a.count ∧
      ∀ j, j < a.count → (a.resize h k).1.get j = a.get j) := by
  obtain ⟨h1, -, h3, -, -, h6⟩ := resize_spec a h k hlen hle
  refine ⟨h1, fun hk => ⟨?_, ?_⟩, fun hk => ⟨?_, ?_⟩⟩
  · rw [h3]; omega
  · intro j hj
    rw [array_t.get, array_t.get, h6 j (by omega)]
  · rw [h3]; omega
  · intro j hj
    rw [array_t.get, array_t.get, h6 j (by omega)]

/-- Witness for C7 at a concrete input: truncating `[1, 2, 3]` to
capacity 2 and growing it to capacity 5. -/
theorem claim_C7_resize_witness :
    ((array_t.mk 7 [some 1, some 2, some 3] 3 3 : array_t Nat).resize
        ⟨true, 9⟩ 2).1.capacity = 2 ∧
    ((array_t.mk 7 [some 1, some 2, some 3] 3 3 : array_t Nat).resize
        ⟨true, 9⟩ 2).1.count = 2 ∧
    ((array_t.mk 7 [some 1, some 2, some 3] 3 3 : array_t Nat).resize
        ⟨true, 9⟩ 2).1.get 1 =
      (array_t.mk 7 [some 1, some 2, some 3] 3 3 : array_t Nat).get 1 ∧
    ((array_t.mk 7 [some 1, some 2, some 3] 3 3 : array_t Nat).resize
        ⟨true, 9⟩ 5).1.count = 3 := by
  have h2 := claim_C7_resize (array_t.mk 7 [some 1, some 2, some 3] 3 3)
    ⟨true, 9⟩ 2 rfl (by decide)
  have h5 := claim_C7_resize (array_t.mk 7 [some 1, some 2, some 3] 3 3)
    ⟨true, 9⟩ 5 rfl (by decide)
  exact ⟨h2.1, (h2.2.1 (by decide)).1, (h2.2.1 (by decide)).2 1 (by decide),
    (h5.2.2 (by decide)).1⟩

/-- Claim C9: for every well-formed array, `reverse` applied twice
restores the array exactly; after a single `reverse`, `get i` equals the
value `get (count-1-i)` held before the call, for every `i < count`;
`count` and `capacity` (and the data pointer) are unchanged. -/
theorem claim_C9_reverse_involution {α : Type} (a : array_t α)
    (hlen : a.buf.length = a.capacity) (hle : a.count ≤ a.capacity) :
    a.reverse.reverse = a ∧
    a.reverse.count = a.count ∧
    a.reverse.capacity = a.capacity ∧
    ∀ i, i < a.count → a.reverse.get i = a.get (a.count - 1 - i) := by
  have hcl : a.count ≤ a.buf.length := by omega
  have hrd1 : ∀ k, rd a.reverse.buf k =
      if k < a.count then rd a.buf (a.count - 1 - k) else rd a.buf k := by
    intro k
    have := rd_revAux (a.count / 2) a.buf a.count 0 hcl (by omega) k
    simpa using this
  refine ⟨?_, rfl, rfl, ?_⟩
  · have hlen2 : a.reverse.reverse.buf.length = a.buf.length := by
      show (revAux (revAux a.buf a.count 0 (a.count / 2)) a.count 0
        (a.count / 2)).length = a.buf.length
      rw [revAux_length, revAux_length]
    have hcl2 : a.count ≤ a.reverse.buf.length := by
      show a.count ≤ (revAux a.buf a.count 0 (a.count / 2)).length
      rw [revAux_length]; exact hcl
    have hrd2 : ∀ k, rd a.reverse.reverse.buf k = rd a.buf k := by
      intro k
      have houter := rd_revAux (a.count / 2) a.reverse.buf a.count 0 hcl2
        (by omega) k
      have : a.reverse.reverse.buf =
          revAux a.reverse.buf a.count 0 (a.count / 2) := rfl
      rw [this, houter]
      simp only [Nat.zero_le, true_and, Nat.sub_zero]
      split_ifs with hk
      · rw [hrd1 (a.count - 1 - k), if_pos (by omega)]
        congr 1
        omega
      · rw [hrd1 k, if_neg (by omega)]
    have hbuf : a.reverse.reverse.buf = a.buf :=
      rd_ext _ _ (by rw [hlen2]) hrd2
    obtain ⟨d, b, c, cap⟩ := a
    simpa [array_t.reverse] using hbuf
  · intro i hi
    rw [array_t.get, array_t.get, hrd1 i, if_pos hi]

/-- Witness for C9 at a concrete input: reversing `[1, 2, 3]`. -/
theorem claim_C9_reverse_involution_witness :
    ((array_t.mk 4 [some 1, some 2, some 3, none] 3 4 : array_t Nat).reverse).reverse =
      array_t.mk 4 [some 1, some 2, some 3, none] 3 4 ∧
    ((array_t.mk 4 [some 1, some 2, some 3, none] 3 4 : array_t Nat).reverse).get 0 =
      (array_t.mk 4 [some 1, some 2, some 3, none] 3 4 : array_t Nat).get 2 := by
  have h := claim_C9_reverse_involution
    (array_t.mk 4 [some 1, some 2, some 3, none] 3 4) rfl (by decide)
  exact ⟨h.1, h.2.2.2 0 (by decide)⟩

/-- Counterexample to claim C1 as stated: after three `add` calls from
the empty array the state has `count + 1 = capacity = 4` (so adding one
more would not exceed capacity), yet the fourth `add` performs another
allocation (the allocator counter steps from 2 to 3, its second
allocation) and capacity becomes 8, not 4: four consecutive `add` calls
from `capacity = 0` trigger two reallocations, not at most one. -/
theorem claim_C1_counterexample :
    (addAll (array_t.empty : array_t Nat) ⟨false, 1⟩ [10, 20, 30]).1.count + 1 =
      (addAll (array_t.empty : array_t Nat) ⟨false, 1⟩ [10, 20, 30]).1.capacity ∧
    (addAll (array_t.empty : array_t Nat) ⟨false, 1⟩ [10, 20, 30]).2.nextId = 2 ∧
    (addAll (array_t.empty : array_t Nat) ⟨false, 1⟩ [10, 20, 30, 40]).2.nextId = 3 ∧
    (addAll (array_t.empty : array_t Nat) ⟨false, 1⟩ [10, 20, 30, 40]).1.capacity = 8 := by
  decide

/-- Claim C1 (amended): `add` reallocates exactly when `count + 1 >=
capacity` — one element earlier than "would exceed" — performing one
allocation and setting capacity to `capacity*2 < 4 ? 4 : capacity*2`
(so capacity does jump directly to 4 on the first growth from 0); when
`count + 1 < capacity` it performs no allocation and leaves the data
pointer and capacity unchanged.  Consequently three consecutive `add`
calls from the zeroed array trigger exactly one reallocation, but four
trigger exactly two, reaching capacity 8. -/
theorem claim_C1_amended_growth {α : Type} (a : array_t α) (h : Heap) (x : α) :
    (a.count + 1 ≥ a.capacity →
      (a.add h x).2.1.nextId = h.nextId + 1 ∧
      (a.add h x).1.capacity =
        (if a.capacity * 2 < 4 then 4 else a.capacity * 2)) ∧
    (a.count + 1 < a.capacity →
      (a.add h x).2.1 = h ∧
      (a.add h x).1.dataPtr = a.dataPtr ∧
      (a.add h x).1.capacity = a.capacity) ∧
    (addAll (array_t.empty : array_t Nat) ⟨false, 1⟩ [10, 20, 30]).2.nextId = 2 ∧
    (addAll (array_t.empty : array_t Nat) ⟨false, 1⟩ [10, 20, 30]).1.capacity = 4 ∧
    (addAll (array_t.empty : array_t Nat) ⟨false, 1⟩ [10, 20, 30, 40]).2.nextId = 3 ∧
    (addAll (array_t.empty : array_t Nat) ⟨false, 1⟩ [10, 20, 30, 40]).1.capacity = 8 := by
  refine ⟨?_, ?_, by decide, by decide, by decide, by decide⟩
  · intro hg
    have hm0 : ¬ ((if a.capacity * 2 < 4 then 4 else a.capacity * 2) = 0 ∧
        (h.zeroNull = true)) := by
      intro hand
      rcases hand with ⟨h0, -⟩
      revert h0
      split <;> omega
    have hstep : a.add h x =
        ({ (a.resize h (if a.capacity * 2 < 4 then 4 else a.capacity * 2)).1 with
             buf := (a.resize h (if a.capacity * 2 < 4 then 4 else
               a.capacity * 2)).1.buf.set
               (a.resize h (if a.capacity * 2 < 4 then 4 else
                 a.capacity * 2)).1.count (some x),
             count := (a.resize h (if a.capacity * 2 < 4 then 4 else
               a.capacity * 2)).1.count + 1 },
         (a.resize h (if a.capacity * 2 < 4 then 4 else a.capacity * 2)).2,
         (a.resize h (if a.capacity * 2 < 4 then 4 else a.capacity * 2)).1.count) := by
      simp only [array_t.add, if_pos hg]
    rw [hstep]
    constructor
    · show (hmalloc h (if a.capacity * 2 < 4 then 4 else a.capacity * 2)).2.nextId =
        h.nextId + 1
      rw [hmalloc, if_neg hm0]
    · rfl
  · intro hlt
    have hg' : ¬ (a.count + 1 ≥ a.capacity) := by omega
    have hstep : a.add h x =
        ({ a with buf := a.buf.set a.count (some x), count := a.count + 1 },
         h, a.count) := by
      simp only [array_t.add, if_neg hg']
    rw [hstep]
    exact ⟨rfl, rfl, rfl⟩

/-- Witness for the amended C1 at concrete inputs: with `count = 3`,
`capacity = 4` the add path allocates (counter steps), and with
`count = 1`, `capacity = 4` it leaves the allocator untouched. -/
theorem claim_C1_amended_growth_witness :
    ((array_t.mk 1 [some 5, some 6, some 7, none] 3 4 : array_t Nat).add
        ⟨false, 9⟩ 8).2.1.nextId = 9 + 1 ∧
    ((array_t.mk 1 [some 5, none, none, none] 1 4 : array_t Nat).add
        ⟨false, 9⟩ 8).2.1 = ⟨false, 9⟩ :=
  ⟨((claim_C1_amended_growth _ _ _).1 (by decide)).1,
   ((claim_C1_amended_growth _ _ _).2.1 (by decide)).1⟩

/-- Counterexample to claim C2 as stated: on a well-formed array with
`count = 1`, `capacity = 2`, the documented contract violation
`set(1, 7)` (index ≥ count) does not trigger the assertion primitive —
it is silently accepted and returns normally — and `get(1)` is an
unchecked uninitialized read, also not an assertion failure. -/
theorem claim_C2_counterexample :
    (array_t.mk 1 [some 5, none] 1 2 : array_t Nat).set 1 7 =
      CRes.ok (array_t.mk 1 [some 5, some 7] 1 2) ∧
    (array_t.mk 1 [some 5, none] 1 2 : array_t Nat).get 1 = CRes.ub ∧
    1 ≥ (array_t.mk 1 [some 5, none] 1 2 : array_t Nat).count := by
  decide

/-- Claim C2 (amended): the checked contract violations are exactly
those of `remove`, `pop` and `insert`: `remove` with index ≥ count,
`pop` on an empty array (via `remove(count-1)` with wrapped index), and
`insert` with index > count all hit `ARRAY_ASSERT`.  But `get`, `set`
and `operator[]` with any out-of-range index, and `last` on an empty
array, never reach the assertion primitive: they access memory
unchecked (a silent write, or an uninitialized/out-of-bounds read). -/
theorem claim_C2_amended_contract_checks {α : Type} (a : array_t α)
    (i : Nat) (x v : α) (h : Heap)
    (hlen : a.buf.length = a.capacity) (hcap : a.capacity < SZ64) :
    (a.count ≤ i → a.remove i = CRes.assertFailed) ∧
    (a.count = 0 → a.pop = CRes.assertFailed) ∧
    (a.count < i → a.insert h i x = CRes.assertFailed) ∧
    (a.count = 0 → a.last = CRes.ub) ∧
    a.get i ≠ CRes.assertFailed ∧
    a.set i v ≠ CRes.assertFailed ∧
    a.opIndex i ≠ CRes.assertFailed := by
  refine ⟨?_, ?_, ?_, ?_, ?_, ?_, ?_⟩
  · intro hi
    simp only [array_t.remove]
    rw [if_neg (by omega)]
  · intro h0
    simp only [array_t.pop, array_t.remove, h0]
    rw [if_neg (Nat.not_lt_zero _)]
  · intro hi
    simp only [array_t.insert]
    rw [if_neg (by omega)]
  · intro h0
    have hp : pred64 0 = SZ64 - 1 := by
      rw [pred64, Nat.zero_add]
      exact Nat.mod_eq_of_lt (by rw [SZ64]; omega)
    have hnone : rd a.buf (pred64 a.count) = none := by
      rw [h0, hp]
      exact rd_eq_none_of_le _ _ (by omega)
    simp only [array_t.last, hnone]
  · cases hrv : rd a.buf i <;> simp [array_t.get, hrv]
  · simp only [array_t.set]
    split_ifs <;> simp
  · cases hrv : rd a.buf i <;> simp [array_t.opIndex, hrv]

/-- Witness for the amended C2 at a concrete input: on the empty array,
`remove(1)`, `pop()` and `insert(1, 7)` all assert, while `last()` and
`get(1)` do not reach the assertion. -/
theorem claim_C2_amended_contract_checks_witness :
    (array_t.empty : array_t Nat).remove 1 = CRes.assertFailed ∧
    (array_t.empty : array_t Nat).pop = CRes.assertFailed ∧
    (array_t.empty : array_t Nat).insert ⟨true, 1⟩ 1 7 = CRes.assertFailed ∧
    (array_t.empty : array_t Nat).last = CRes.ub ∧
    (array_t.empty : array_t Nat).get 1 ≠ CRes.assertFailed := by
  have W := claim_C2_amended_contract_checks (array_t.empty : array_t Nat)
    1 7 7 ⟨true, 1⟩ rfl (by decide)
  exact ⟨W.1 (by decide), W.2.1 rfl, W.2.2.1 (by decide), W.2.2.2.1 rfl,
    W.2.2.2.2.1⟩

/-- Helper: the pointer returned by the modelled allocator is null iff
the request was zero-sized, provided zero-size requests return null and
fresh pointers are non-null. -/
theorem hmalloc_null_iff (h : Heap) (n : Nat) (hz : h.zeroNull = true)
    (hn : 0 < h.nextId) : ((hmalloc h n).1 = 0 ↔ n = 0) := by
  by_cases hk : n = 0
  · subst hk
    simp [hmalloc, hz]
  · rw [hmalloc, if_neg (by simp [hk])]
    constructor <;> intro hc <;> omega

/-- Counterexample to claim C3 as stated: with the default allocator
(glibc `malloc`, which returns a fresh non-null pointer for a zero-byte
request), `resize(0)` on the zeroed array yields `capacity = 0` with a
non-null data pointer, breaking `data == null ⟺ capacity == 0`. -/
theorem claim_C3_counterexample :
    ((array_t.empty : array_t Nat).resize ⟨false, 1⟩ 0).1.capacity = 0 ∧
    ((array_t.empty : array_t Nat).resize ⟨false, 1⟩ 0).1.dataPtr ≠ 0 := by
  decide

/-- Claim C3 (amended): `data == null ⟺ capacity == 0` holds in the
zeroed state and is preserved by `resize` (any target capacity,
including 0), `copy` (including of a zero-capacity array), `free`,
`add`, `insert`, `remove`, `clear`, `pop` and `reverse` — provided the
allocator returns null exactly for zero-byte requests (`zeroNull`,
with non-null fresh pointers).  Under the default glibc-style allocator
the invariant is instead broken by `resize(0)` and by `copy` of a
zero-capacity array, the two operations that can request zero bytes. -/
theorem claim_C3_amended_null_iff {α : Type} (a : array_t α) (h : Heap)
    (k i : Nat) (x : α)
    (hz : h.zeroNull = true) (hn : 0 < h.nextId) (ha : nullIff a) :
    nullIff (array_t.empty : array_t α) ∧
    nullIff (a.resize h k).1 ∧
    nullIff (a.copy h).1 ∧
    nullIff a.free ∧
    nullIff (a.add h x).1 ∧
    (∀ a' h', a.insert h i x = CRes.ok (a', h') → nullIff a') ∧
    (∀ a', a.remove i = CRes.ok a' → nullIff a') ∧
    nullIff a.clear ∧
    (∀ a', a.pop = CRes.ok a' → nullIff a') ∧
    nullIff a.reverse := by
  have hrem : ∀ j a', a.remove j = CRes.ok a' → nullIff a' := by
    intro j a' heq
    simp only [array_t.remove] at heq
    split at heq
    · rw [CRes.ok.injEq] at heq
      rw [← heq]
      exact ha
    · exact CRes.noConfusion heq
  refine ⟨by simp [nullIff, array_t.empty], ?_, ?_, by simp [nullIff,
    array_t.free, array_t.empty], ?_, ?_, hrem i, ha, hrem _, ha⟩
  · show ((hmalloc h k).1 = 0 ↔ k = 0)
    exact hmalloc_null_iff h k hz hn
  · show ((hmalloc h a.capacity).1 = 0 ↔ a.capacity = 0)
    exact hmalloc_null_iff h a.capacity hz hn
  · by_cases hg : a.count + 1 ≥ a.capacity
    · have hstep : a.add h x =
          ({ (a.resize h (if a.capacity * 2 < 4 then 4 else a.capacity * 2)).1 with
               buf := (a.resize h (if a.capacity * 2 < 4 then 4 else
                 a.capacity * 2)).1.buf.set
                 (a.resize h (if a.capacity * 2 < 4 then 4 else
                   a.capacity * 2)).1.count (some x),
               count := (a.resize h (if a.capacity * 2 < 4 then 4 else
                 a.capacity * 2)).1.count + 1 },
           (a.resize h (if a.capacity * 2 < 4 then 4 else a.capacity * 2)).2,
           (a.resize h (if a.capacity * 2 < 4 then 4 else a.capacity * 2)).1.count) := by
        simp only [array_t.add, if_pos hg]
      rw [hstep]
      show ((hmalloc h (if a.capacity * 2 < 4 then 4 else a.capacity * 2)).1 = 0 ↔
        (if a.capacity * 2 < 4 then 4 else a.capacity * 2) = 0)
      exact hmalloc_null_iff h _ hz hn
    · have hstep : a.add h x =
          ({ a with buf := a.buf.set a.count (some x), count := a.count + 1 },
           h, a.count) := by
        simp only [array_t.add, if_neg hg]
      rw [hstep]
      exact ha
  · intro a' h' heq
    simp only [array_t.insert] at heq
    split at heq
    · rw [CRes.ok.injEq, Prod.mk.injEq] at heq
      rw [← heq.1]
      by_cases hg : a.count + 1 > a.capacity
      · rw [if_pos hg]
        show ((hmalloc h (if a.capacity < 1 then 1 else a.capacity * 2)).1 = 0 ↔
          (if a.capacity < 1 then 1 else a.capacity * 2) = 0)
        exact hmalloc_null_iff h _ hz hn
      · rw [if_neg hg]
        exact ha
    · exact CRes.noConfusion heq

/-- Witness for the amended C3 at a concrete input: with a null-for-zero
allocator, `resize(0)` and `add` on the zeroed array both preserve the
invariant. -/
theorem claim_C3_amended_null_iff_witness :
    nullIff ((array_t.empty : array_t Nat).resize ⟨true, 1⟩ 0).1 ∧
    nullIff ((array_t.empty : array_t Nat).add ⟨true, 1⟩ 5).1 := by
  have W := claim_C3_amended_null_iff (array_t.empty : array_t Nat)
    ⟨true, 1⟩ 0 0 5 rfl (by decide) (by decide)
  exact ⟨W.2.1, W.2.2.2.2.1⟩

/-- Claim C6: for every well-formed array and every `i ≤ count`,
`insert(i, x)` succeeds, the subsequent `remove(i)` succeeds, and the
result has the original `count` and the original value at every index
(also when the insert triggered a growth reallocation). -/
theorem claim_C6_insert_remove_roundtrip {α : Type} (a : array_t α)
    (h : Heap) (i : Nat) (x : α)
    (hlen : a.buf.length = a.capacity) (hle : a.count ≤ a.capacity)
    (hi : i ≤ a.count) :
    ∃ a1 h1 a2, a.insert h i x = CRes.ok (a1, h1) ∧
      a1.remove i = CRes.ok a2 ∧
      a2.count = a.count ∧
      ∀ j, j < a.count → a2.get j = a.get j := by
  have hpre : (if a.count + 1 > a.capacity then
        a.resize h (if a.capacity < 1 then 1 else a.capacity * 2)
      else (a, h)).1.count = a.count ∧
      a.count < (if a.count + 1 > a.capacity then
        a.resize h (if a.capacity < 1 then 1 else a.capacity * 2)
      else (a, h)).1.buf.length ∧
      ∀ j, j < a.count → rd (if a.count + 1 > a.capacity then
        a.resize h (if a.capacity < 1 then 1 else a.capacity * 2)
      else (a, h)).1.buf j = rd a.buf j := by
    by_cases hg : a.count + 1 > a.capacity
    · rw [if_pos hg]
      have hM : a.count < (if a.capacity < 1 then 1 else a.capacity * 2) := by
        split <;> omega
      obtain ⟨-, c2, c3, -, -, c6⟩ := resize_spec a h
        (if a.capacity < 1 then 1 else a.capacity * 2) hlen hle
      have hmin : min a.count (if a.capacity < 1 then 1 else a.capacity * 2) =
          a.count := by omega
      rw [hmin] at c3 c6
      exact ⟨c3, by omega, c6⟩
    · rw [if_neg hg]
      refine ⟨rfl, ?_, fun j hj => rfl⟩
      show a.count < a.buf.length
      omega
  set P := if a.count + 1 > a.capacity then
      a.resize h (if a.capacity < 1 then 1 else a.capacity * 2)
    else (a, h) with hPdef
  obtain ⟨q1, q3, q4⟩ := hpre
  have hins : a.insert h i x = CRes.ok
      ({ P.1 with buf := insertShift P.1.buf i P.1.count x,
                  count := P.1.count + 1 }, P.2) := by
    simp only [array_t.insert, if_pos hi]
  have hlen1 : (insertShift P.1.buf i P.1.count x).length = P.1.buf.length :=
    insertShift_length _ _ _ _ (by omega) (by omega)
  have hrem : ({ P.1 with buf := insertShift P.1.buf i P.1.count x,
                          count := P.1.count + 1 } : array_t α).remove i =
      CRes.ok { P.1 with
                  buf := removeShift (insertShift P.1.buf i P.1.count x) i
                    (P.1.count + 1),
                  count := P.1.count } := by
    simp only [array_t.remove]
    rw [if_pos (show i < P.1.count + 1 by omega)]
    rfl
  refine ⟨_, _, _, hins, hrem, q1, ?_⟩
  intro j hj
  have hr2 : rd (removeShift (insertShift P.1.buf i P.1.count x) i
      (P.1.count + 1)) j = rd a.buf j := by
    rw [rd_removeShift _ _ _ _ (by omega) (by rw [hlen1]; omega)]
    by_cases hji : j < i
    · rw [if_neg (by omega),
        rd_insertShift _ _ _ _ _ (by omega) (by omega), if_pos hji]
      exact q4 j hj
    · rw [if_pos (by omega),
        rd_insertShift _ _ _ _ _ (by omega) (by omega)]
      rw [if_neg (by omega), if_neg (by omega), if_pos (by omega)]
      have hj1 : j + 1 - 1 = j := rfl
      rw [hj1]
      exact q4 j hj
  show array_t.get _ j = array_t.get a j
  rw [array_t.get, array_t.get]
  have hsc : rd ({ P.1 with
      buf := removeShift (insertShift P.1.buf i P.1.count x) i
        (P.1.count + 1),
      count := P.1.count } : array_t α).buf j = rd a.buf j := hr2
  rw [hsc]

/-- Witness for C6 at a concrete input: inserting 99 at index 1 of
`[1, 2, 3]` (which forces a growth reallocation, capacity 3 → 6) and
removing it restores count 3 and the values at all indices. -/
theorem claim_C6_insert_remove_roundtrip_witness :
    ∃ a1 h1 a2,
      (array_t.mk 4 [some 1, some 2, some 3] 3 3 : array_t Nat).insert
        ⟨true, 7⟩ 1 99 = CRes.ok (a1, h1) ∧
      a1.remove 1 = CRes.ok a2 ∧
      a2.count = (array_t.mk 4 [some 1, some 2, some 3] 3 3 :
        array_t Nat).count ∧
      ∀ j, j < (array_t.mk 4 [some 1, some 2, some 3] 3 3 :
          array_t Nat).count →
        a2.get j = (array_t.mk 4 [some 1, some 2, some 3] 3 3 :
          array_t Nat).get j :=
  claim_C6_insert_remove_roundtrip
    (array_t.mk 4 [some 1, some 2, some 3] 3 3) ⟨true, 7⟩ 1 99
    rfl (by decide) (by decide)

/-- Claim C10: `clear`, `set`, `pop`, `remove`, `reverse` and `each`
leave the data pointer and the capacity unchanged (none of them takes
the allocator at all in this embedding — they contain no allocation or
release call; `get` reads without touching the state), so a strided
view aimed at the buffer stays valid across them; `add` and `insert`
also leave the pointer, the capacity and the allocator untouched when
no growth is triggered. -/
theorem claim_C10_frame_effects {α : Type} (a : array_t α) (i : Nat)
    (v : α) (e : α → α) (h : Heap) (x : α) :
    (a.clear.dataPtr = a.dataPtr ∧ a.clear.capacity = a.capacity) ∧
    framePres a (a.set i v) ∧
    framePres a a.pop ∧
    framePres a (a.remove i) ∧
    (a.reverse.dataPtr = a.dataPtr ∧ a.reverse.capacity = a.capacity) ∧
    ((a.each e).dataPtr = a.dataPtr ∧ (a.each e).capacity = a.capacity) ∧
    (a.count + 1 < a.capacity →
      (a.add h x).1.dataPtr = a.dataPtr ∧
      (a.add h x).1.capacity = a.capacity ∧
      (a.add h x).2.1 = h) ∧
    (a.count + 1 ≤ a.capacity → framePresH a h (a.insert h i x)) := by
  refine ⟨⟨rfl, rfl⟩, ?_, ?_, ?_, ⟨rfl, rfl⟩, ⟨rfl, rfl⟩, ?_, ?_⟩
  · simp only [array_t.set]
    split_ifs <;> simp [framePres]
  · simp only [array_t.pop, array_t.remove]
    split_ifs <;> simp [framePres]
  · simp only [array_t.remove]
    split_ifs <;> simp [framePres]
  · intro hlt
    have hg : ¬ (a.count + 1 ≥ a.capacity) := by omega
    have hstep : a.add h x =
        ({ a with buf := a.buf.set a.count (some x), count := a.count + 1 },
         h, a.count) := by
      simp only [array_t.add, if_neg hg]
    rw [hstep]
    exact ⟨rfl, rfl, rfl⟩
  · intro hle
    by_cases hic : i ≤ a.count
    · have hg : ¬ (a.count + 1 > a.capacity) := by omega
      have hstep : a.insert h i x = CRes.ok
          ({ a with buf := insertShift a.buf i a.count x,
                    count := a.count + 1 }, h) := by
        simp only [array_t.insert, if_pos hic, if_neg hg]
      rw [hstep]
      exact ⟨rfl, rfl, rfl⟩
    · have hstep : a.insert h i x = CRes.assertFailed := by
        simp only [array_t.insert, if_neg hic]
      rw [hstep]
      trivial

/-- Witness for C10 at a concrete input: an array with slack capacity
(`count = 2`, `capacity = 4`), where `add` and `insert` keep the data
pointer, the capacity and the allocator state, and `remove` keeps the
pointer and capacity. -/
theorem claim_C10_frame_effects_witness :
    ((array_t.mk 1 [some 1, some 2, none, none] 2 4 : array_t Nat).add
        ⟨false, 5⟩ 9).1.dataPtr = 1 ∧
    ((array_t.mk 1 [some 1, some 2, none, none] 2 4 : array_t Nat).add
        ⟨false, 5⟩ 9).2.1 = ⟨false, 5⟩ ∧
    framePresH (array_t.mk 1 [some 1, some 2, none, none] 2 4) ⟨false, 5⟩
      ((array_t.mk 1 [some 1, some 2, none, none] 2 4 : array_t Nat).insert
        ⟨false, 5⟩ 1 9) ∧
    framePres (array_t.mk 1 [some 1, some 2, none, none] 2 4)
      ((array_t.mk 1 [some 1, some 2, none, none] 2 4 : array_t Nat).remove 1) := by
  have W := claim_C10_frame_effects
    (array_t.mk 1 [some 1, some 2, none, none] 2 4) 1 9 (fun t => t)
    ⟨false, 5⟩ 9
  exact ⟨(W.2.2.2.2.2.2.1 (by decide)).1, (W.2.2.2.2.2.2.1 (by decide)).2.2,
    W.2.2.2.2.2.2.2 (by decide), W.2.2.2.1⟩

/-- Claim C4 (supporting theorem for a code bug): the view constructors,
modelled from the spec (the source's `array_view_create` is ill-formed
C++ and cannot be instantiated — see RESULTS), produce a view whose
stride is the record size `sizeof(D)`, whose offset is the field's byte
offset within `D`, and whose data and count are the given pointer and
count (respectively the array's buffer pointer and count). -/
theorem claim_C4_view_create_geometry {T D : Type} (data cnt : Nat)
    (fd : FieldDesc) (src : array_t D) :
    (@array_view_create T data cnt fd).stride = fd.recordSize ∧
    (@array_view_create T data cnt fd).offset = fd.fieldOffset ∧
    (@array_view_create T data cnt fd).data = data ∧
    (@array_view_create T data cnt fd).count = cnt ∧
    (@array_view_create_of_array D T src fd).stride = fd.recordSize ∧
    (@array_view_create_of_array D T src fd).offset = fd.fieldOffset ∧
    (@array_view_create_of_array D T src fd).data = src.dataPtr ∧
    (@array_view_create_of_array D T src fd).count = src.count :=
  ⟨rfl, rfl, rfl, rfl, rfl, rfl, rfl, rfl⟩

/-- Helper: reading slot `i` of a buffer built by mapping `f` over
`List.range n` yields `f i`, for `i < n`. -/
theorem rd_range_map {T : Type} (n : Nat) (f : Nat → Option T) :
    ∀ i, i < n → rd ((List.range n).map f) i = f i := by
  induction n with
  | zero => intro i hi; omega
  | succ n ih =>
    intro i hi
    rw [List.range_succ, List.map_append, rd_append]
    simp only [List.length_map, List.length_range]
    by_cases hin : i < n
    · rw [if_pos hin]
      exact ih i hin
    · have hie : i = n := by omega
      subst hie
      rw [if_neg (by omega), Nat.sub_self]
      simp [rd_singleton]

/-- Claim C8 (supporting theorem for a code bug): `copy_deinterlace`,
modelled from the spec (the source's `array_view_t<T>::get` casts a
pointer rvalue to `T&` and cannot compile — see RESULTS), returns a
tightly packed buffer of `count` values in which slot `i` holds the `T`
located at byte address `data + i*stride + offset`, for every
`i < count`; it only reads the source memory, which is unchanged. -/
theorem claim_C8_copy_deinterlace {T : Type} (v : array_view_t T)
    (mem : ViewMem T) :
    (v.copy_deinterlace mem).length = v.count ∧
    ∀ i, i < v.count →
      rd (v.copy_deinterlace mem) i =
        mem (v.data + i * v.stride + v.offset) := by
  constructor
  · simp [array_view_t.copy_deinterlace]
  · intro i hi
    exact rd_range_map v.count _ i hi

/-- Witness for C8 at a concrete input: a view of 3 records of 12 bytes
with a 4-byte field offset; slot 1 of the de-interlaced buffer holds
the value stored at byte address `100 + 1*12 + 4`. -/
theorem claim_C8_copy_deinterlace_witness :
    ((array_view_t.mk 100 3 12 4 : array_view_t Nat).copy_deinterlace
      (fun addr => if addr = 116 then some 2 else none)).length = 3 ∧
    rd ((array_view_t.mk 100 3 12 4 : array_view_t Nat).copy_deinterlace
      (fun addr => if addr = 116 then some 2 else none)) 1 =
      (fun addr => if addr = 116 then some 2 else none : ViewMem Nat)
        (100 + 1 * 12 + 4) :=
  ⟨(claim_C8_copy_deinterlace (array_view_t.mk 100 3 12 4)
      (fun addr => if addr = 116 then some 2 else none)).1,
   (claim_C8_copy_deinterlace (array_view_t.mk 100 3 12 4)
      (fun addr => if addr = 116 then some 2 else none)).2 1 (by decide)⟩
